import Mathlib

/-!
# Verification of the voice-agent pipeline core

A shallow embedding, in Lean 4, of the parts of the repository that the
frozen claims are about:

* the agent turn controller (`src/core/src/agent.ts`, `createAgentTransform`),
* the voice middleware aggregation (`src/core/src/middleware.ts`,
  `combineMiddleware` and `pipeThroughTransforms`),
* the energy VAD of the batch STT adapter (`src/provider/openai/src/stt.ts`,
  `processFrame`),
* the TTS interrupt path (`src/provider/hume/src/tts.ts`, `interruptTTS`,
  and `OpenAITextToSpeech.interrupt`),
* linear-interpolation PCM resampling (`resamplePCM`, identical in the Hume
  and OpenAI adapters),
* μ-law encode (`PcmToMulawTransform`, `linearToMulaw`) and the repository's
  μ-law decode table (`MulawToPcmTransform`).

JavaScript numbers are modelled as `Int`/`Nat` where the source only ever
holds integers, and as `Rat` where the source performs division; buffers are
modelled as lists of samples or of bytes, as noted at each definition.
Side effects that carry no data (console logging, wall-clock timestamps used
only for logging and for the observability-only partial transcriptions) are
not part of the state.
-/

namespace VoiceAgent

/-- A JavaScript runtime value, as far as the agent transform inspects one:
either a string or some other value. -/
inductive JsVal where
  | str (s : String)
  | other
deriving DecidableEq, Repr

/-- One element of the LangGraph `streamMode: 'messages'` event stream, as
inspected by `createAgentTransform` in `src/core/src/agent.ts`:
`content` is the chunk's `content` field (`none` when the field is absent),
`hasToolCallId` records whether a `tool_call_id` field is present, and
`name` is the chunk's `name` field.  A `null`/non-object stream element is
represented by `Option.none` at the use site. -/
structure AgentChunk where
  content : Option JsVal
  hasToolCallId : Bool
  name : Option JsVal
deriving DecidableEq, Repr

/-- One task of the LangGraph state returned by `agent.getState`, carrying
the values of its `interrupts` array (`task.interrupts[*].value`). -/
structure GraphTask where
  interrupts : List JsVal
deriving DecidableEq, Repr

/-- Observable actions performed by one `transform` call of the agent
transform, in the order they happen: enqueueing response text to the output
controller, invoking the `onHangUp` callback, invoking the `onInterrupt`
callback, and enqueueing the interrupt prompt text to the output
controller. -/
inductive TurnAction where
  | enqueueText (s : String)
  | fireHangUp (reason : Option JsVal)
  | fireOnInterrupt (v : JsVal)
  | enqueueInterrupt (s : String)
deriving DecidableEq, Repr

/-- Does the chunk reach `controller.enqueue` in the loop body of
`createAgentTransform`?  Source condition: the chunk is an object with a
`content` field, without a `tool_call_id` field, and the content is a
non-empty string. -/
def chunkText (c : AgentChunk) : Option String :=
  match c.content, c.hasToolCallId with
  | some (JsVal.str s), false => if s.length > 0 then some s else none
  | _, _ => none

/-- Processing of one stream element in the `for await` loop of
`createAgentTransform`: possibly enqueue its text content; if its `name`
field equals `'hang_up'`, record its `content` as the pending hang-up
reason (`undefined` content is recorded too, as in the source, where the
`!== null` test still fires `onHangUp` on it). -/
def stepChunk (pending : Option (Option JsVal)) (e : Option AgentChunk) :
    List TurnAction × Option (Option JsVal) :=
  match e with
  | none => ([], pending)
  | some c =>
      let acts := match chunkText c with
        | some s => [TurnAction.enqueueText s]
        | none => []
      let pending1 := if c.name = some (JsVal.str "hang_up") then some c.content else pending
      (acts, pending1)

/-- The `for await` loop of `createAgentTransform` over the whole agent
event stream, threading the buffered hang-up decision. -/
def runChunkLoop (events : List (Option AgentChunk)) (pending : Option (Option JsVal)) :
    List TurnAction × Option (Option JsVal) :=
  match events with
  | [] => ([], pending)
  | e :: rest =>
      let p := stepChunk pending e
      let q := runChunkLoop rest p.2
      (p.1 ++ q.1, q.2)

/-- The interrupt inspection after the loop (`graphState.tasks` walk):
for every task with a non-empty `interrupts` array, the first interrupt
value becomes the new `pendingInterrupt`, `onInterrupt` is invoked when
configured, and a string-valued interrupt is enqueued as speakable text. -/
def interruptActions (hasOnInterrupt : Bool) (tasks : List GraphTask) : List TurnAction :=
  tasks.foldr
    (fun t acc =>
      match t.interrupts with
      | [] => acc
      | v :: _ =>
          ((if hasOnInterrupt then [TurnAction.fireOnInterrupt v] else []) ++
            (match v with
              | JsVal.str s => [TurnAction.enqueueInterrupt s]
              | JsVal.other => []) ++ acc))
    []

/-- The new `state.pendingInterrupt` after the `graphState.tasks` walk:
the loop overwrites it with `task.interrupts[0].value` for each task that
has interrupts, so the last such task wins. -/
def pendingAfterTasks (pending : Option JsVal) (tasks : Option (List GraphTask)) :
    Option JsVal :=
  match tasks with
  | none => pending
  | some ts =>
      ts.foldl
        (fun acc t =>
          match t.interrupts with
          | [] => acc
          | v :: _ => some v)
        pending

/-- The full action trace of one `transform` call of the agent transform
after the agent stream has been obtained: the chunk loop, then the deferred
`onHangUp` (fired only when a reason was captured and the callback is
configured), then the interrupt inspection. -/
def turnTrace (hasOnHangUp hasOnInterrupt : Bool) (events : List (Option AgentChunk))
    (tasks : Option (List GraphTask)) : List TurnAction :=
  let p := runChunkLoop events none
  p.1 ++
    (match p.2 with
      | some reason => if hasOnHangUp then [TurnAction.fireHangUp reason] else []
      | none => []) ++
    (match tasks with
      | none => []
      | some ts => interruptActions hasOnInterrupt ts)

/-- The input routing at the top of `transform`: with a pending interrupt
outstanding the text becomes a `Command({ resume: text })` and the pending
interrupt is cleared; otherwise it becomes a fresh `HumanMessage`. -/
inductive AgentInput where
  | resume (text : String)
  | userMessage (text : String)
deriving DecidableEq, Repr

/-- `createAgentTransform` input routing, returning the agent input and the
value of `state.pendingInterrupt` immediately after routing. -/
def routeInput (pending : Option JsVal) (text : String) : AgentInput × Option JsVal :=
  match pending with
  | some _ => (AgentInput.resume text, none)
  | none => (AgentInput.userMessage text, none)

/-- One whole `transform` call at the state level: route the input, run the
turn, and compute the next `pendingInterrupt` from the queried graph
state. -/
def processText (pending : Option JsVal) (text : String)
    (tasks : Option (List GraphTask)) : AgentInput × Option JsVal :=
  let r := routeInput pending text
  (r.1, pendingAfterTasks r.2 tasks)

end VoiceAgent

namespace VoiceAgent

/-- Every action emitted inside the chunk loop is a response-text enqueue:
the loop itself never fires the hang-up callback. -/
theorem runChunkLoop_acts_are_text (events : List (Option AgentChunk))
    (pending : Option (Option JsVal)) :
    ∀ a ∈ (runChunkLoop events pending).1, ∃ s, a = TurnAction.enqueueText s := by
  induction events generalizing pending with
  | nil => intro a ha; simp [runChunkLoop] at ha
  | cons e rest ih =>
    intro a ha
    simp only [runChunkLoop, List.mem_append] at ha
    rcases ha with h | h
    · cases e with
      | none => simp [stepChunk] at h
      | some c =>
        simp only [stepChunk] at h
        cases hc : chunkText c with
        | none => rw [hc] at h; simp at h
        | some s => rw [hc] at h; simp at h; exact ⟨s, h⟩
    · exact ih _ a h

/-- The interrupt inspection after the loop enqueues only interrupt prompts
and fires only `onInterrupt`: it emits neither response text nor the
hang-up notification. -/
theorem interruptActions_no_text (hasOnInterrupt : Bool) (tasks : List GraphTask) :
    ∀ a ∈ interruptActions hasOnInterrupt tasks,
      (∀ s, a ≠ TurnAction.enqueueText s) ∧ (∀ r, a ≠ TurnAction.fireHangUp r) := by
  induction tasks with
  | nil => intro a ha; simp [interruptActions] at ha
  | cons t ts ih =>
    intro a ha
    simp only [interruptActions, List.foldr_cons] at ha
    cases hti : t.interrupts with
    | nil =>
      rw [hti] at ha
      exact ih a ha
    | cons v vs =>
      rw [hti] at ha
      simp only [List.mem_append] at ha
      rcases ha with h | h
      · rcases h with h | h
        · cases hasOnInterrupt with
          | false => simp at h
          | true =>
            simp at h
            subst h
            simp
        · cases v with
          | str s0 =>
            simp at h
            subst h
            simp
          | other => simp at h
      · exact ih a h

/-- C1: in the action trace of a turn, every response-text enqueue from the
agent's event stream happens strictly before the deferred hang-up
notification: the hang-up decision is buffered during the consumption loop
and `onHangUp` fires only after the loop has exited. -/
theorem text_enqueued_before_hangUp (hHU hInt : Bool)
    (events : List (Option AgentChunk)) (tasks : Option (List GraphTask))
    (i j : Nat) (s : String) (r : Option JsVal)
    (hi : (turnTrace hHU hInt events tasks)[i]? = some (TurnAction.enqueueText s))
    (hj : (turnTrace hHU hInt events tasks)[j]? = some (TurnAction.fireHangUp r)) :
    i < j := by
  unfold turnTrace at hi hj
  set L := (runChunkLoop events none).1 with hL
  set T := ((match (runChunkLoop events none).2 with
      | some reason => if hHU then [TurnAction.fireHangUp reason] else []
      | none => []) ++
    (match tasks with
      | none => []
      | some ts => interruptActions hInt ts)) with hT
  rw [List.append_assoc] at hi hj
  have hTnoText : ∀ a ∈ T, ∀ s0, a ≠ TurnAction.enqueueText s0 := by
    intro a ha s0
    rw [hT] at ha
    rcases List.mem_append.mp ha with h | h
    · rcases hp : (runChunkLoop events none).2 with _ | reason
      · rw [hp] at h; simp at h
      · rw [hp] at h
        cases hHU with
        | false => simp at h
        | true => simp at h; subst h; intro hcontra; cases hcontra
    · cases tasks with
      | none => simp at h
      | some ts => exact ((interruptActions_no_text hInt ts a h).1) s0
  have hLnoHang : ∀ a ∈ L, ∀ r0, a ≠ TurnAction.fireHangUp r0 := by
    intro a ha r0 hcontra
    obtain ⟨s0, hs0⟩ := runChunkLoop_acts_are_text events none a ha
    rw [hs0] at hcontra
    cases hcontra
  have hiL : i < L.length := by
    by_contra hge
    push_neg at hge
    rw [List.getElem?_append_right hge] at hi
    have hmem : TurnAction.enqueueText s ∈ T := by
      have := List.getElem?_mem hi
      exact this
    exact (hTnoText _ hmem s) rfl
  have hjL : L.length ≤ j := by
    by_contra hlt
    push_neg at hlt
    rw [List.getElem?_append_left hlt] at hj
    have hmem : TurnAction.fireHangUp r ∈ L := List.getElem?_mem hj
    exact (hLnoHang _ hmem r) rfl
  omega

/-- Witness for C1: a turn whose event stream contains one response-text
chunk followed by a `hang_up` tool event produces the trace
`[enqueueText, fireHangUp]`, and the theorem applies at indices 0 and 1. -/
theorem text_enqueued_before_hangUp_witness : (0 : Nat) < 1 := by
  have h :=
    text_enqueued_before_hangUp true true
      [some ⟨some (JsVal.str "Goodbye."), false, none⟩,
       some ⟨some JsVal.other, true, some (JsVal.str "hang_up")⟩]
      none 0 1 "Goodbye." (some JsVal.other)
      (by decide) (by decide)
  exact h

end VoiceAgent

namespace VoiceAgent

/-- The `tasks` fold keeps `pendingInterrupt` set exactly when it was
already set or some task carries an interrupt. -/
theorem pendingAfterTasks_foldl_isSome (p : Option JsVal) (ts : List GraphTask) :
    (ts.foldl
        (fun acc t =>
          match t.interrupts with
          | [] => acc
          | v :: _ => some v)
        p).isSome = true ↔ p.isSome = true ∨ ∃ t ∈ ts, t.interrupts ≠ [] := by
  induction ts generalizing p with
  | nil => simp
  | cons t ts ih =>
    rw [List.foldl_cons]
    cases hti : t.interrupts with
    | nil =>
      simp only [hti]
      rw [ih]
      constructor
      · rintro (hp | ⟨u, hu, hne⟩)
        · exact Or.inl hp
        · exact Or.inr ⟨u, List.mem_cons_of_mem t hu, hne⟩
      · rintro (hp | ⟨u, hu, hne⟩)
        · exact Or.inl hp
        · rcases List.mem_cons.mp hu with rfl | hu2
          · exact absurd hti hne
          · exact Or.inr ⟨u, hu2, hne⟩
    | cons v vs =>
      simp only [hti]
      rw [ih]
      constructor
      · intro _
        exact Or.inr ⟨t, List.mem_cons_self t ts, by rw [hti]; simp⟩
      · intro _
        exact Or.inl rfl

/-- C2: input routing and suspension bookkeeping of the agent transform.
With a suspension outstanding the next input text is submitted as a resume
command and the held suspension is cleared; with none outstanding it starts
a fresh turn as a new user message; and after the turn the controller holds
an outstanding suspension exactly when the queried agent state contains a
task with a non-empty interrupt list. -/
theorem suspension_resume_routing :
    (∀ (v : JsVal) (text : String),
        routeInput (some v) text = (AgentInput.resume text, none)) ∧
    (∀ text, routeInput none text = (AgentInput.userMessage text, none)) ∧
    (∀ (pending : Option JsVal) (text : String) (tasks : Option (List GraphTask)),
        ((processText pending text tasks).2).isSome = true ↔
          ∃ ts, tasks = some ts ∧ ∃ t ∈ ts, t.interrupts ≠ []) := by
  refine ⟨fun v text => rfl, fun text => rfl, fun pending text tasks => ?_⟩
  have hroute : (routeInput pending text).2 = none := by
    cases pending with
    | none => rfl
    | some v => rfl
  have hpt : (processText pending text tasks).2 =
      pendingAfterTasks (routeInput pending text).2 tasks := rfl
  rw [hpt, hroute]
  cases tasks with
  | none => simp [pendingAfterTasks]
  | some ts =>
    have hfold : pendingAfterTasks none (some ts) =
        ts.foldl
          (fun acc t =>
            match t.interrupts with
            | [] => acc
            | v :: _ => some v)
          none := rfl
    rw [hfold, pendingAfterTasks_foldl_isSome]
    simp


end VoiceAgent

/-!
## Middleware aggregation (`src/core/src/middleware.ts`)

`combineMiddleware` walks the registered middleware list once, pushing every
middleware onto the agent-middleware list and, for voice middleware,
concatenating the four seam transform arrays and collecting the two event
callback lists.  Transforms are modelled as values of an abstract type `T`
(functions `α → α` when the application order matters); an event callback is
modelled by an identifier plus whether invoking it throws.
-/

/-- An event callback registered through `onSpeechStart`/`onAudioComplete`:
`id` identifies it in invocation traces, `throwsErr` tells whether calling
it throws an exception. -/
structure EventCallback where
  id : Nat
  throwsErr : Bool
deriving DecidableEq, Repr

/-- A middleware as `combineMiddleware` sees it: `isVoice` is the
`isVoiceMiddleware` type-guard result (the `__voiceMiddleware` marker), and
the voice hooks are the optional seam arrays and event callbacks
(`none` models an `undefined` field). -/
structure MiddlewareM (T : Type) where
  isVoice : Bool
  beforeSTT : Option (List T)
  afterSTT : Option (List T)
  beforeTTS : Option (List T)
  afterTTS : Option (List T)
  onSpeechStart : Option EventCallback
  onAudioComplete : Option EventCallback
deriving DecidableEq, Repr

/-- The `CombinedVoiceHooks` accumulator built by `combineMiddleware`,
plus the two callback arrays it closes over. -/
structure CombinedHooks (T : Type) where
  beforeSTT : List T
  afterSTT : List T
  beforeTTS : List T
  afterTTS : List T
  speechStartCallbacks : List EventCallback
  audioCompleteCallbacks : List EventCallback
  agentMiddleware : List (MiddlewareM T)
deriving DecidableEq, Repr

/-- The initial accumulator of `combineMiddleware` (all lists empty). -/
def emptyCombined (T : Type) : CombinedHooks T :=
  ⟨[], [], [], [], [], [], []⟩

/-- One iteration of the `for (const middleware of middlewares)` loop of
`combineMiddleware`: every middleware is pushed to `agentMiddleware`; a
voice middleware additionally appends each present seam array and pushes
each present event callback.  (In the source an *empty* seam array is
truthy and appends nothing, which coincides with `Option.getD []`.) -/
def combineStep {T : Type} (c : CombinedHooks T) (m : MiddlewareM T) : CombinedHooks T :=
  let c1 : CombinedHooks T := { c with agentMiddleware := c.agentMiddleware ++ [m] }
  if m.isVoice then
    { c1 with
      beforeSTT := c1.beforeSTT ++ m.beforeSTT.getD []
      afterSTT := c1.afterSTT ++ m.afterSTT.getD []
      beforeTTS := c1.beforeTTS ++ m.beforeTTS.getD []
      afterTTS := c1.afterTTS ++ m.afterTTS.getD []
      speechStartCallbacks := c1.speechStartCallbacks ++ m.onSpeechStart.toList
      audioCompleteCallbacks := c1.audioCompleteCallbacks ++ m.onAudioComplete.toList }
  else c1

/-- `combineMiddleware` from `src/core/src/middleware.ts`. -/
def combineMiddleware {T : Type} (ms : List (MiddlewareM T)) : CombinedHooks T :=
  ms.foldl combineStep (emptyCombined T)

/-- `pipeThroughTransforms` from `src/core/src/middleware.ts`: pipe the
stream through each transform in list order, so the first transform in the
list sees the data first.  A stream is abstracted to a value of type `α`
and a `TransformStream` to a function `α → α`. -/
def pipeThroughTransforms {α : Type} (stream : α) (transforms : List (α → α)) : α :=
  transforms.foldl (fun s t => t s) stream

/-- The combined callback closure built by `combineMiddleware`
(`for (const callback of callbacks) callback()`), run under JavaScript
exception semantics: a throwing callback ends the loop and the exception
propagates.  Returns the invoked callback ids in invocation order and
whether the firing threw. -/
def fireAll : List EventCallback → List Nat × Bool
  | [] => ([], false)
  | cb :: cbs =>
      if cb.throwsErr then ([cb.id], true)
      else
        let r := fireAll cbs
        (cb.id :: r.1, r.2)

/-- Modelled from the spec ("the combined transform chain for a seam is the
concatenation of each middleware's contribution for that seam, in
registration order"): the specification-side seam chain, to be compared
with the chain `combineMiddleware` builds. -/
def specSeamChain {T : Type} (seam : MiddlewareM T → Option (List T))
    (ms : List (MiddlewareM T)) : List T :=
  ms.flatMap (fun m => if m.isVoice then (seam m).getD [] else [])

/-- Modelled from the spec ("all registered callbacks for an event are
invoked on every firing, in registration order"): the specification-side
callback list for one event. -/
def specEventChain {T : Type} (ev : MiddlewareM T → Option EventCallback)
    (ms : List (MiddlewareM T)) : List EventCallback :=
  ms.flatMap (fun m => if m.isVoice then (ev m).toList else [])

/-- Unfolding of the `combineMiddleware` fold: the final accumulator is the
starting accumulator with each list extended by the corresponding
specification-side chain. -/
theorem combineMiddleware_foldl {T : Type} (ms : List (MiddlewareM T)) (c : CombinedHooks T) :
    List.foldl combineStep c ms =
      { beforeSTT := c.beforeSTT ++ specSeamChain (fun m => m.beforeSTT) ms
        afterSTT := c.afterSTT ++ specSeamChain (fun m => m.afterSTT) ms
        beforeTTS := c.beforeTTS ++ specSeamChain (fun m => m.beforeTTS) ms
        afterTTS := c.afterTTS ++ specSeamChain (fun m => m.afterTTS) ms
        speechStartCallbacks :=
          c.speechStartCallbacks ++ specEventChain (fun m => m.onSpeechStart) ms
        audioCompleteCallbacks :=
          c.audioCompleteCallbacks ++ specEventChain (fun m => m.onAudioComplete) ms
        agentMiddleware := c.agentMiddleware ++ ms } := by
  induction ms generalizing c with
  | nil => simp [specSeamChain, specEventChain]
  | cons m ms ih =>
    rw [List.foldl_cons, ih]
    cases hv : m.isVoice with
    | false =>
      simp [combineStep, hv, specSeamChain, specEventChain]
    | true =>
      simp [combineStep, hv, specSeamChain, specEventChain]


/-- When no callback throws, the combined firing loop invokes every
callback in list order. -/
theorem fireAll_no_throw (cbs : List EventCallback)
    (h : ∀ cb ∈ cbs, cb.throwsErr = false) :
    fireAll cbs = (cbs.map EventCallback.id, false) := by
  induction cbs with
  | nil => rfl
  | cons cb cbs ih =>
    have hcb : cb.throwsErr = false := h cb (List.mem_cons_self cb cbs)
    have hrest := ih (fun x hx => h x (List.mem_cons_of_mem cb hx))
    simp only [fireAll, hcb]
    rw [hrest]
    simp

/-- C5: `combineMiddleware` builds, for each of the four seams, exactly the
concatenation of each voice middleware's contribution in registration
order; `pipeThroughTransforms` applies such a chain so the first-registered
middleware's transform sees data first; and one firing of a combined event
invokes every registered middleware's callback for that event, in
registration order. -/
theorem middleware_composition_and_events {T α : Type} (ms : List (MiddlewareM T))
    (m1 m2 : MiddlewareM (α → α)) (s : α)
    (h1 : m1.isVoice = true) (h2 : m2.isVoice = true)
    (hss : ∀ cb ∈ (combineMiddleware ms).speechStartCallbacks, cb.throwsErr = false)
    (hac : ∀ cb ∈ (combineMiddleware ms).audioCompleteCallbacks, cb.throwsErr = false) :
    ((combineMiddleware ms).beforeSTT = specSeamChain (fun m => m.beforeSTT) ms ∧
      (combineMiddleware ms).afterSTT = specSeamChain (fun m => m.afterSTT) ms ∧
      (combineMiddleware ms).beforeTTS = specSeamChain (fun m => m.beforeTTS) ms ∧
      (combineMiddleware ms).afterTTS = specSeamChain (fun m => m.afterTTS) ms) ∧
    (pipeThroughTransforms s ((combineMiddleware [m1, m2]).beforeTTS) =
      pipeThroughTransforms (pipeThroughTransforms s (m1.beforeTTS.getD []))
        (m2.beforeTTS.getD [])) ∧
    ((fireAll (combineMiddleware ms).speechStartCallbacks).1 =
      (specEventChain (fun m => m.onSpeechStart) ms).map EventCallback.id ∧
      (fireAll (combineMiddleware ms).audioCompleteCallbacks).1 =
        (specEventChain (fun m => m.onAudioComplete) ms).map EventCallback.id) := by
  have hfold : ∀ (S : Type) (ns : List (MiddlewareM S)),
      combineMiddleware ns =
        { beforeSTT := specSeamChain (fun m => m.beforeSTT) ns
          afterSTT := specSeamChain (fun m => m.afterSTT) ns
          beforeTTS := specSeamChain (fun m => m.beforeTTS) ns
          afterTTS := specSeamChain (fun m => m.afterTTS) ns
          speechStartCallbacks := specEventChain (fun m => m.onSpeechStart) ns
          audioCompleteCallbacks := specEventChain (fun m => m.onAudioComplete) ns
          agentMiddleware := ns } := by
    intro S ns
    unfold combineMiddleware
    rw [combineMiddleware_foldl]
    simp [emptyCombined]
  refine ⟨?_, ?_, ?_, ?_⟩
  · rw [hfold T ms]
    exact ⟨rfl, rfl, rfl, rfl⟩
  · rw [hfold (α → α) [m1, m2]]
    show pipeThroughTransforms s (specSeamChain (fun m => m.beforeTTS) [m1, m2]) = _
    have hchain : specSeamChain (fun m => m.beforeTTS) [m1, m2] =
        m1.beforeTTS.getD [] ++ m2.beforeTTS.getD [] := by
      simp [specSeamChain, h1, h2]
    rw [hchain]
    unfold pipeThroughTransforms
    rw [List.foldl_append]
  · rw [fireAll_no_throw _ hss]
    rw [hfold T ms]
  · rw [fireAll_no_throw _ hac]
    rw [hfold T ms]


/-- A voice middleware used to instantiate the composition theorem:
contributes one token to every seam and a callback to both events. -/
def mwTokA : MiddlewareM Nat :=
  ⟨true, some [10], some [20], some [30], some [40], some ⟨1, false⟩, some ⟨2, false⟩⟩

/-- A second voice middleware, contributing to some seams only. -/
def mwTokB : MiddlewareM Nat :=
  ⟨true, some [11], none, some [31], none, some ⟨3, false⟩, none⟩

/-- A voice middleware whose `beforeTTS` transform adds one. -/
def mwFn1 : MiddlewareM (Nat → Nat) :=
  ⟨true, none, none, some [fun x => x + 1], none, none, none⟩

/-- A voice middleware whose `beforeTTS` transform doubles. -/
def mwFn2 : MiddlewareM (Nat → Nat) :=
  ⟨true, none, none, some [fun x => x * 2], none, none, none⟩

/-- Witness for C5: two concrete middleware pairs; the seam chain is the
registration-order concatenation, the transforms apply first-registered
first ((3 + 1) * 2 = 8), and both event callbacks fire in order. -/
theorem middleware_composition_and_events_witness :
    (combineMiddleware [mwTokA, mwTokB]).beforeSTT = [10, 11] ∧
    pipeThroughTransforms 3 ((combineMiddleware [mwFn1, mwFn2]).beforeTTS) = 8 ∧
    (fireAll (combineMiddleware [mwTokA, mwTokB]).speechStartCallbacks).1 = [1, 3] := by
  have h := middleware_composition_and_events [mwTokA, mwTokB] mwFn1 mwFn2 3 rfl rfl
    (by decide) (by decide)
  refine ⟨?_, ?_, ?_⟩
  · rw [h.1.1]
    decide
  · rw [h.2.1]
    rfl
  · rw [h.2.2.1]
    decide

/-- A registered speech-start callback whose invocation throws. -/
def cbThrowing : EventCallback := ⟨1, true⟩

/-- A second registered speech-start callback, after the throwing one. -/
def cbSecond : EventCallback := ⟨2, false⟩

/-- A voice middleware registering the throwing speech-start callback. -/
def mwThrowing : MiddlewareM Nat := ⟨true, none, none, none, none, some cbThrowing, none⟩

/-- A voice middleware registering the second speech-start callback. -/
def mwSecond : MiddlewareM Nat := ⟨true, none, none, none, none, some cbSecond, none⟩

/-- Counterexample to C6: with two middleware registered, the second
callback is registered for the event, the first one throws on a firing,
and the second is then not invoked — the `for` loop of the combined
callback has no exception isolation. -/
theorem callback_isolation_counterexample :
    cbSecond ∈ (combineMiddleware [mwThrowing, mwSecond]).speechStartCallbacks ∧
    (fireAll (combineMiddleware [mwThrowing, mwSecond]).speechStartCallbacks).1 = [1] ∧
    cbSecond.id ∉ (fireAll (combineMiddleware [mwThrowing, mwSecond]).speechStartCallbacks).1 := by
  decide

/-- C6 amended: on a firing of a combined event callback, the registered
callbacks are invoked in registration order only up to and including the
first throwing callback; its exception propagates out of the combined
callback and the remaining registered callbacks are not invoked on that
firing. -/
theorem callback_firing_stops_at_throw {T : Type} (ms : List (MiddlewareM T))
    (pre : List EventCallback) (cb : EventCallback) (post : List EventCallback)
    (hsplit : (combineMiddleware ms).speechStartCallbacks = pre ++ cb :: post)
    (hpre : ∀ b ∈ pre, b.throwsErr = false) (hcb : cb.throwsErr = true) :
    fireAll (combineMiddleware ms).speechStartCallbacks =
      (pre.map EventCallback.id ++ [cb.id], true) := by
  rw [hsplit]
  clear hsplit
  induction pre with
  | nil => simp [fireAll, hcb]
  | cons b bs ih =>
    have hb : b.throwsErr = false := hpre b (List.mem_cons_self b bs)
    have hrest := ih (fun x hx => hpre x (List.mem_cons_of_mem b hx))
    rw [List.cons_append]
    simp only [fireAll, hb]
    rw [hrest]
    simp

/-- Witness for the amended C6 theorem at the two concrete middlewares:
only the throwing callback is invoked and the firing throws. -/
theorem callback_firing_stops_at_throw_witness :
    fireAll (combineMiddleware [mwThrowing, mwSecond]).speechStartCallbacks = ([1], true) := by
  have h := callback_firing_stops_at_throw [mwThrowing, mwSecond] [] cbThrowing [cbSecond]
    (by decide) (by decide) (by decide)
  rw [h]
  decide


/-!
## Energy VAD of the batch STT adapter (`src/provider/openai/src/stt.ts`)

`processFrame` classifies one fixed-size frame by mean absolute sample
magnitude against `vadEnergyThreshold`, debounces the Idle→Speaking
transition over `minSpeechFrames` consecutive speech frames (the source
fixes this constant to 4), accumulates frames while speaking, and flushes
the utterance after `vadSilenceFrames` consecutive silence frames.  Frames
are modelled as lists of 16-bit samples; the wall-clock bookkeeping
(`speechStartTime`, `peakEnergy`, log throttling) and the
observability-only partial transcription feed no data back into the VAD
state and are not modelled. -/

/-- `calculateEnergy`: mean absolute sample magnitude of a frame.  The
source sums `Math.abs(sample)` over the 16-bit samples and divides by
`frame.length / 2`, the sample count; with a frame modelled as its sample
list, that is the exact rational `sum / frame.length`, written with
`mkRat` (for the empty frame the source yields `NaN`, which compares below
any threshold, matching `mkRat s 0 = 0` never exceeding a non-negative
threshold; the adapter only ever passes full frames). -/
def calculateEnergy (frame : List Int) : Rat :=
  mkRat (frame.foldl (fun sum sample => sum + (sample.natAbs : Int)) 0) frame.length

/-- VAD tuning taken from the adapter options: energy threshold, silence
hangover frame count, the (source-constant) minimum consecutive speech
frame count, and whether an `onSpeechStart` callback was supplied. -/
structure VadConfig where
  vadEnergyThreshold : Rat
  vadSilenceFrames : Nat
  minSpeechFrames : Nat
  hasOnSpeechStart : Bool
deriving DecidableEq, Repr

/-- Is the frame classified as speech (`energy > vadEnergyThreshold`)? -/
def isSpeechFrame (cfg : VadConfig) (f : List Int) : Bool :=
  calculateEnergy f > cfg.vadEnergyThreshold

/-- The mutable VAD state of the adapter closure. -/
structure VadState where
  audioBuffer : List (List Int)
  speechFrameCount : Nat
  silenceFrameCount : Nat
  isSpeaking : Bool
  speechStartSignaled : Bool
deriving DecidableEq, Repr

/-- The adapter's initial VAD state (also the state after every flush). -/
def initialVadState : VadState := ⟨[], 0, 0, false, false⟩

/-- Result of one `processFrame` call: the new state, the flushed
utterance (the `speechEnded`/`audioData` return) and whether
`onSpeechStart` was invoked during the call. -/
structure FrameResult where
  state : VadState
  flushed : Option (List (List Int))
  speechStartFired : Bool
deriving DecidableEq, Repr

/-- `processFrame` from `src/provider/openai/src/stt.ts`, lines 177-259. -/
def processFrame (cfg : VadConfig) (st : VadState) (f : List Int) : FrameResult :=
  if isSpeechFrame cfg f then
    let st1 : VadState :=
      { st with silenceFrameCount := 0, speechFrameCount := st.speechFrameCount + 1 }
    let fired := !st1.isSpeaking && decide (st1.speechFrameCount ≥ cfg.minSpeechFrames) &&
      !st1.speechStartSignaled && cfg.hasOnSpeechStart
    let st2 : VadState :=
      if !st1.isSpeaking && decide (st1.speechFrameCount ≥ cfg.minSpeechFrames) then
        { st1 with
          isSpeaking := true
          speechStartSignaled := st1.speechStartSignaled || cfg.hasOnSpeechStart }
      else st1
    let st3 : VadState :=
      if st2.isSpeaking then { st2 with audioBuffer := st2.audioBuffer ++ [f] } else st2
    ⟨st3, none, fired⟩
  else
    if st.isSpeaking then
      let st1 : VadState :=
        { st with
          silenceFrameCount := st.silenceFrameCount + 1
          audioBuffer := st.audioBuffer ++ [f] }
      if st1.silenceFrameCount ≥ cfg.vadSilenceFrames then
        ⟨initialVadState, some st1.audioBuffer, false⟩
      else
        ⟨st1, none, false⟩
    else
      ⟨{ st with speechFrameCount := 0 }, none, false⟩

/-- Externally visible VAD events: an `onSpeechStart` invocation and a
flushed utterance handed downstream. -/
inductive VadEvent where
  | speechStart
  | flush (utterance : List (List Int))
deriving DecidableEq, Repr

/-- Run the VAD over a frame sequence, collecting the event trace. -/
def runVad (cfg : VadConfig) (st : VadState) (fs : List (List Int)) :
    VadState × List VadEvent :=
  match fs with
  | [] => (st, [])
  | f :: rest =>
      let r := processFrame cfg st f
      let q := runVad cfg r.state rest
      (q.1,
        ((if r.speechStartFired then [VadEvent.speechStart] else []) ++
          (match r.flushed with
            | some u => [VadEvent.flush u]
            | none => [])) ++ q.2)

/-- Every maximal run of consecutive speech-classified frames in `fs` stays
below `cfg.minSpeechFrames`, starting from a partial run of length `c`. -/
def noLongRun (cfg : VadConfig) (c : Nat) : List (List Int) → Bool
  | [] => true
  | f :: fs =>
      if isSpeechFrame cfg f then
        decide (c + 1 < cfg.minSpeechFrames) && noLongRun cfg (c + 1) fs
      else
        noLongRun cfg 0 fs

/-- The trace contains no second `speechStart` before an intervening
flush (`armed` records whether a `speechStart` is already outstanding). -/
def noDoubleStart (armed : Bool) : List VadEvent → Bool
  | [] => true
  | VadEvent.speechStart :: evs => !armed && noDoubleStart true evs
  | VadEvent.flush _ :: evs => noDoubleStart false evs


/-- A speech frame that does not yet reach the debounce threshold only
bumps the speech counter: no transition, no buffering, no event. -/
theorem processFrame_speech_no_transition (cfg : VadConfig) (st : VadState) (f : List Int)
    (hs : isSpeechFrame cfg f = true) (hIdle : st.isSpeaking = false)
    (hlt : st.speechFrameCount + 1 < cfg.minSpeechFrames) :
    processFrame cfg st f =
      ⟨{ st with silenceFrameCount := 0, speechFrameCount := st.speechFrameCount + 1 },
        none, false⟩ := by
  have hd : decide (st.speechFrameCount + 1 ≥ cfg.minSpeechFrames) = false :=
    decide_eq_false (by omega)
  simp [processFrame, hs, hIdle, hd]

/-- A silence frame in the Idle state only clears the speech counter. -/
theorem processFrame_silence_idle (cfg : VadConfig) (st : VadState) (f : List Int)
    (hs : isSpeechFrame cfg f = false) (hIdle : st.isSpeaking = false) :
    processFrame cfg st f = ⟨{ st with speechFrameCount := 0 }, none, false⟩ := by
  simp [processFrame, hs, hIdle]

/-- If every consecutive speech run (continuing a partial run of length
`speechFrameCount`) stays below the debounce minimum, the VAD never leaves
Idle, emits no event, and flushes nothing. -/
theorem runVad_trace_nil_of_noLongRun (cfg : VadConfig) (fs : List (List Int)) :
    ∀ st : VadState, st.isSpeaking = false →
      noLongRun cfg st.speechFrameCount fs = true →
      (runVad cfg st fs).2 = [] ∧ (runVad cfg st fs).1.isSpeaking = false := by
  induction fs with
  | nil => intro st h1 _; exact ⟨rfl, h1⟩
  | cons f rest ih =>
    intro st hIdle hrun
    rw [noLongRun] at hrun
    cases hs : isSpeechFrame cfg f with
    | true =>
      rw [hs] at hrun
      simp at hrun
      obtain ⟨hlt, hrest⟩ := hrun
      have hpf := processFrame_speech_no_transition cfg st f hs hIdle hlt
      have hnext := ih ⟨st.audioBuffer, st.speechFrameCount + 1, 0, st.isSpeaking, st.speechStartSignaled⟩ hIdle hrest
      simp only [runVad, hpf]
      simpa using hnext
    | false =>
      rw [hs] at hrun
      simp at hrun
      have hpf := processFrame_silence_idle cfg st f hs hIdle
      have hnext := ih ⟨st.audioBuffer, 0, st.silenceFrameCount, st.isSpeaking, st.speechStartSignaled⟩ hIdle hrun
      simp only [runVad, hpf]
      simpa using hnext

/-- Case analysis of one `processFrame` call with respect to the
`speechStartSignaled` latch: either `onSpeechStart` fires (only from an
unsignaled state, setting the latch, and never together with a flush), or
an utterance is flushed (resetting the latch, without firing), or neither
happens and the latch is unchanged. -/
theorem processFrame_signal_cases (cfg : VadConfig) (st : VadState) (f : List Int) :
    ((processFrame cfg st f).speechStartFired = true ∧
      (processFrame cfg st f).flushed = none ∧
      st.speechStartSignaled = false ∧
      (processFrame cfg st f).state.speechStartSignaled = true) ∨
    ((∃ u, (processFrame cfg st f).flushed = some u) ∧
      (processFrame cfg st f).speechStartFired = false ∧
      (processFrame cfg st f).state.speechStartSignaled = false) ∨
    ((processFrame cfg st f).speechStartFired = false ∧
      (processFrame cfg st f).flushed = none ∧
      (processFrame cfg st f).state.speechStartSignaled = st.speechStartSignaled) := by
  by_cases hs : isSpeechFrame cfg f = true
  · by_cases htr : (!st.isSpeaking &&
        decide (st.speechFrameCount + 1 ≥ cfg.minSpeechFrames)) = true
    · by_cases hsig : st.speechStartSignaled = true
      · refine Or.inr (Or.inr ?_)
        simp [processFrame, hs, htr, hsig]
      · rw [Bool.not_eq_true] at hsig
        by_cases hcb : cfg.hasOnSpeechStart = true
        · refine Or.inl ?_
          simp [processFrame, hs, htr, hsig, hcb]
        · rw [Bool.not_eq_true] at hcb
          refine Or.inr (Or.inr ?_)
          simp [processFrame, hs, htr, hsig, hcb]
    · rw [Bool.not_eq_true] at htr
      refine Or.inr (Or.inr ?_)
      simp [processFrame, hs, htr]
      split
      · rfl
      · rfl
  · rw [Bool.not_eq_true] at hs
    by_cases hsp : st.isSpeaking = true
    · by_cases hfl : st.silenceFrameCount + 1 ≥ cfg.vadSilenceFrames
      · refine Or.inr (Or.inl ?_)
        simp [processFrame, hs, hsp, hfl, initialVadState]
      · refine Or.inr (Or.inr ?_)
        simp [processFrame, hs, hsp, hfl]
    · rw [Bool.not_eq_true] at hsp
      refine Or.inr (Or.inr ?_)
      simp [processFrame, hs, hsp]

/-- Between an Idle→Speaking transition and the end-of-speech reset the
`speechStartSignaled` latch guarantees `onSpeechStart` fires at most once:
the event trace never shows two `speechStart`s without a flush between. -/
theorem runVad_noDoubleStart (cfg : VadConfig) (fs : List (List Int)) :
    ∀ st : VadState, noDoubleStart st.speechStartSignaled (runVad cfg st fs).2 = true := by
  induction fs with
  | nil => intro st; rfl
  | cons f rest ih =>
    intro st
    have hnext := ih (processFrame cfg st f).state
    rcases processFrame_signal_cases cfg st f with
      ⟨hf, hfl, hsig0, hsig1⟩ | ⟨⟨u, hu⟩, hf, hsig1⟩ | ⟨hf, hfl, hsig1⟩
    · rw [hsig1] at hnext
      simp only [runVad, hf, hfl]
      simpa [noDoubleStart, hsig0] using hnext
    · rw [hsig1] at hnext
      simp only [runVad, hf, hu]
      simpa [noDoubleStart] using hnext
    · rw [hsig1] at hnext
      simp only [runVad, hf, hfl]
      simpa using hnext

/-- C3: an audio stream whose bursts of speech-level energy all stay below
the minimum consecutive speech-frame count flushes no utterance (and emits
no event at all); and on any stream, `onSpeechStart` fires at most once
between an Idle→Speaking transition and the utterance's end-of-speech
reset. -/
theorem vad_debounce_and_single_start (cfg : VadConfig) (fs : List (List Int)) :
    (noLongRun cfg 0 fs = true → (runVad cfg initialVadState fs).2 = []) ∧
    noDoubleStart false (runVad cfg initialVadState fs).2 = true := by
  constructor
  · intro h
    exact (runVad_trace_nil_of_noLongRun cfg fs initialVadState rfl h).1
  · exact runVad_noDoubleStart cfg fs initialVadState

/-- The VAD tuning used by the witnesses: threshold 500, fifteen silence
frames, the source's four-frame debounce, with a speech-start callback. -/
def vadCfg0 : VadConfig := ⟨mkRat 500 1, 15, 4, true⟩

/-- A stream with speech bursts of lengths 3 and 1, both below the
four-frame debounce. -/
def vadFrames0 : List (List Int) := [[600], [700], [650], [0], [800]]

/-- Witness for C3: on the concrete sub-threshold stream the hypothesis
holds and the VAD emits nothing. -/
theorem vad_debounce_and_single_start_witness :
    noLongRun vadCfg0 0 vadFrames0 = true ∧
    (runVad vadCfg0 initialVadState vadFrames0).2 = [] := by
  refine ⟨by decide, ?_⟩
  exact (vad_debounce_and_single_start vadCfg0 vadFrames0).1 (by decide)


/-- VAD tuning for the transition-buffer run: two silence frames end the
utterance quickly; the debounce minimum is the source's 4. -/
def vadCfgC4 : VadConfig := ⟨mkRat 500 1, 2, 4, true⟩

/-- Four consecutive speech frames (which together trigger the
Idle→Speaking transition) followed by enough silence to flush. -/
def vadFramesC4 : List (List Int) := [[601], [602], [603], [604], [0], [0]]

/-- Counterexample to C4: the frame `[601]` is speech-classified and is one
of the four consecutive speech frames counted toward the debounce minimum,
yet the flushed utterance contains only the transition-completing frame
`[604]` plus trailing silence — the debounce frames before the transition
are not in the accumulated buffer. -/
theorem transition_buffer_counterexample :
    isSpeechFrame vadCfgC4 [601] = true ∧
    (runVad vadCfgC4 initialVadState vadFramesC4).2 =
      [VadEvent.speechStart, VadEvent.flush [[604], [0], [0]]] ∧
    [601] ∉ [[604], [0], [0]] := by
  decide

/-- C4 amended: on the Idle→Speaking transition the VAD begins
accumulating with the single frame that completed the minimum consecutive
speech-frame count; the earlier debounce frames counted toward the
threshold are not retained. -/
theorem transition_buffer_only_current_frame (cfg : VadConfig) (st : VadState)
    (f : List Int) (hIdle : st.isSpeaking = false) (hBuf : st.audioBuffer = [])
    (hs : isSpeechFrame cfg f = true)
    (hMin : st.speechFrameCount + 1 ≥ cfg.minSpeechFrames) :
    (processFrame cfg st f).state.isSpeaking = true ∧
    (processFrame cfg st f).state.audioBuffer = [f] := by
  have hd : decide (st.speechFrameCount + 1 ≥ cfg.minSpeechFrames) = true :=
    decide_eq_true hMin
  simp [processFrame, hs, hIdle, hBuf, hd]

/-- Witness for the amended C4 theorem: with three speech frames already
counted, the fourth speech frame triggers the transition and the buffer
holds exactly that frame. -/
theorem transition_buffer_only_current_frame_witness :
    (processFrame vadCfg0 ⟨[], 3, 0, false, false⟩ [604]).state.audioBuffer = [[604]] := by
  exact (transition_buffer_only_current_frame vadCfg0 ⟨[], 3, 0, false, false⟩ [604]
    rfl rfl (by decide) (by decide)).2


/-!
## TTS interrupt path

`interruptTTS` in `src/provider/hume/src/tts.ts` (lines 130-156): an early
return when `isInterrupted` is already set, otherwise close and null the
WebSocket, null the connection promise, resolve the pending close promise,
fire `onInterrupt`, and schedule the 100 ms cooldown reset of
`isInterrupted`.  `OpenAITextToSpeech.interrupt` in
`src/provider/openai/src/stt.ts` (TTS half, lines 415-421) only sets
`isInterrupted` and schedules the same 100 ms reset.  The model is the
sequential one: a call runs to completion before the next event
(`interrupt`, cooldown expiry, or `transform`) starts. -/

/-- The connection-related closure state of the Hume TTS adapter. -/
structure HumeState where
  isInterrupted : Bool
  wsOpen : Bool
  connectionPending : Bool
  closeResolvePending : Bool
deriving DecidableEq, Repr

/-- Observable actions of the Hume TTS adapter. -/
inductive HumeAction where
  | closeWs
  | resolveClosePromise
  | fireOnInterrupt
  | scheduleCooldownReset
  | connect
  | sendText (text : String)
deriving DecidableEq, Repr

/-- `interruptTTS` from `src/provider/hume/src/tts.ts`. -/
def interruptTTS (hasOnInterrupt : Bool) (st : HumeState) : HumeState × List HumeAction :=
  if st.isInterrupted then (st, [])
  else
    (⟨true, false, false, false⟩,
      (if st.wsOpen then [HumeAction.closeWs] else []) ++
        (if st.closeResolvePending then [HumeAction.resolveClosePromise] else []) ++
        (if hasOnInterrupt then [HumeAction.fireOnInterrupt] else []) ++
        [HumeAction.scheduleCooldownReset])

/-- Expiry of the 100 ms cooldown timer (`setTimeout` body): clears
`isInterrupted`. -/
def cooldownReset (st : HumeState) : HumeState := { st with isInterrupted := false }

/-- The adapter's `transform(text)` in the sequential model: dropped while
shutting down or interrupted; otherwise `ensureConnection` reuses an open
WebSocket or establishes a fresh one (after an interrupt both `ws` and
`connectionPromise` are null, so a fresh connection is created), then the
text and flush messages are sent. -/
def transformText (shuttingDown : Bool) (st : HumeState) (text : String) :
    HumeState × List HumeAction :=
  if shuttingDown || st.isInterrupted then (st, [])
  else
    if st.wsOpen then (st, [HumeAction.sendText text])
    else
      ({ st with wsOpen := true, connectionPending := false },
        [HumeAction.connect, HumeAction.sendText text])

/-- `OpenAITextToSpeech` interrupt state: the `isInterrupted` flag. -/
structure OpenAITtsState where
  isInterrupted : Bool
deriving DecidableEq, Repr

/-- `OpenAITextToSpeech.interrupt`: sets the flag (the scheduled 100 ms
reset is a separate event). -/
def openaiInterrupt (st : OpenAITtsState) : OpenAITtsState :=
  { st with isInterrupted := true }

/-- After any `interruptTTS` call the interrupted flag is set. -/
theorem interruptTTS_sets_flag (hasOnInterrupt : Bool) (st : HumeState) :
    (interruptTTS hasOnInterrupt st).1.isInterrupted = true := by
  unfold interruptTTS
  cases hi : st.isInterrupted with
  | true => simp [hi]
  | false => simp [hi]

/-- A call with the interrupted flag set is a complete no-op. -/
theorem interruptTTS_noop_of_flag (hasOnInterrupt : Bool) (st : HumeState)
    (h : st.isInterrupted = true) :
    interruptTTS hasOnInterrupt st = (st, []) := by
  simp [interruptTTS, h]

/-- One `interruptTTS` call fires `onInterrupt` at most once. -/
theorem interruptTTS_fire_count (hasOnInterrupt : Bool) (st : HumeState) :
    ((interruptTTS hasOnInterrupt st).2).count HumeAction.fireOnInterrupt ≤ 1 := by
  unfold interruptTTS
  cases hi : st.isInterrupted with
  | true => simp
  | false =>
    cases st.wsOpen <;> cases st.closeResolvePending <;> cases hasOnInterrupt <;>
      simp [List.count_cons, List.count_append]

/-- C7: a second TTS interrupt inside the cooldown window is a no-op — it
leaves the state exactly as after the first call and performs no action, so
`onInterrupt` fires at most once across both calls, and after the cooldown
expires a subsequent text segment starts the same clean synthesis (a fresh
connection) as after a single interrupt.  The OpenAI adapter's flag-only
interrupt is likewise idempotent on its state. -/
theorem tts_interrupt_idempotent (hasOnInterrupt shuttingDown : Bool)
    (st : HumeState) (ost : OpenAITtsState) (text : String) :
    (interruptTTS hasOnInterrupt (interruptTTS hasOnInterrupt st).1).1 =
      (interruptTTS hasOnInterrupt st).1 ∧
    (interruptTTS hasOnInterrupt (interruptTTS hasOnInterrupt st).1).2 = [] ∧
    ((interruptTTS hasOnInterrupt st).2 ++
        (interruptTTS hasOnInterrupt (interruptTTS hasOnInterrupt st).1).2).count
      HumeAction.fireOnInterrupt ≤ 1 ∧
    transformText shuttingDown
        (cooldownReset (interruptTTS hasOnInterrupt (interruptTTS hasOnInterrupt st).1).1)
        text =
      transformText shuttingDown (cooldownReset (interruptTTS hasOnInterrupt st).1) text ∧
    openaiInterrupt (openaiInterrupt ost) = openaiInterrupt ost := by
  have hsecond := interruptTTS_noop_of_flag hasOnInterrupt
    (interruptTTS hasOnInterrupt st).1 (interruptTTS_sets_flag hasOnInterrupt st)
  refine ⟨?_, ?_, ?_, ?_, rfl⟩
  · rw [hsecond]
  · rw [hsecond]
  · rw [hsecond]
    simpa using interruptTTS_fire_count hasOnInterrupt st
  · rw [hsecond]


/-!
## Linear-interpolation PCM resampling

`resamplePCM` is textually identical (up to parameter names) in
`src/provider/hume/src/tts.ts` (lines 21-45) and
`src/provider/openai/src/stt.ts` (lines 385-408).  A `Buffer` is modelled
as its byte list, so the source's half-sample subtleties on odd-length
buffers (`inputSamples = input.length / 2` is then fractional, and the
clamped ceiling read lands on the byte offset `input.length - 2`) are
represented exactly; sample rates are exact rationals. -/

/-- `Buffer.readInt16LE`: the signed 16-bit little-endian value at byte
offset `off` (out-of-range bytes default to 0; the in-bounds theorem shows
the offsets used stay in range). -/
def readInt16LE (b : List Nat) (off : Nat) : Int :=
  let u := b.getD off 0 + 256 * b.getD (off + 1) 0
  if u < 32768 then (u : Int) else (u : Int) - 65536

/-- `Buffer.writeInt16LE`: the two bytes (low, high) of a sample's 16-bit
two's complement. -/
def int16Bytes (v : Int) : List Nat :=
  [((v % 65536).toNat) % 256, ((v % 65536).toNat) / 256]

/-- JavaScript `Math.round`: half-way cases round toward positive
infinity. -/
def jsRound (q : Rat) : Int := ⌊q + 1 / 2⌋

/-- Byte offset `srcIndexFloor * 2` of output sample `i`
(`srcIndexFloor = Math.floor(i * ratio)`). -/
def srcFloorOff (rsRatio : Rat) (i : Nat) : Int := 2 * ⌊(i : Rat) * rsRatio⌋

/-- Byte offset `srcIndexCeil * 2` of output sample `i`.  The source sets
`srcIndexCeil = Math.min(srcIndexFloor + 1, inputSamples - 1)` with
`inputSamples = byteLength / 2`; doubling, the byte offset is
`min (2 * srcIndexFloor + 2) (byteLength - 2)`, an integer even when
`inputSamples` is fractional (odd byte length). -/
def srcCeilOff (rsRatio : Rat) (byteLength : Nat) (i : Nat) : Int :=
  min (srcFloorOff rsRatio i + 2) ((byteLength : Int) - 2)

/-- One output sample of `resamplePCM`: the clamped, rounded linear
interpolation between the floor and (clamped) ceiling source samples. -/
def resampleSample (input : List Nat) (rsRatio : Rat) (i : Nat) : Int :=
  let srcIndex : Rat := (i : Rat) * rsRatio
  let fraction : Rat := srcIndex - (⌊srcIndex⌋ : Rat)
  let sample1 := readInt16LE input (srcFloorOff rsRatio i).toNat
  let sample2 := readInt16LE input (srcCeilOff rsRatio input.length i).toNat
  let interpolated := jsRound ((sample1 : Rat) + ((sample2 - sample1 : Int) : Rat) * fraction)
  max (-32768) (min 32767 interpolated)

/-- `resamplePCM`: identity at equal rates, otherwise
`Math.floor(inputSamples / ratio)` interpolated samples written back as
16-bit little-endian bytes. -/
def resamplePCM (input : List Nat) (fromRate toRate : Rat) : List Nat :=
  if fromRate = toRate then input
  else
    let rsRatio := fromRate / toRate
    let outputSamples : Nat := (⌊(input.length : Rat) / 2 / rsRatio⌋).toNat
    (List.range outputSamples).flatMap
      (fun i => int16Bytes (resampleSample input rsRatio i))

/-- C8: resampling from a rate to that same rate is the identity transform
— the output bytes equal the input bytes (the source returns the input
buffer unchanged). -/
theorem resample_same_rate_identity (input : List Nat) (rate : Rat) :
    resamplePCM input rate rate = input := by
  simp [resamplePCM]

/-- A written sample always occupies exactly two bytes. -/
theorem int16Bytes_length (v : Int) : (int16Bytes v).length = 2 := rfl

/-- Every resampled output sample is already clamped into the signed
16-bit range. -/
theorem resampleSample_range (input : List Nat) (rsRatio : Rat) (i : Nat) :
    -32768 ≤ resampleSample input rsRatio i ∧ resampleSample input rsRatio i ≤ 32767 := by
  unfold resampleSample
  refine ⟨le_max_left _ _, max_le (by norm_num) (min_le_left _ _)⟩

/-- C10: with `fromRate > toRate ≥ 1` the resampler is total and in
range: the output length is exactly twice the floor of
`inputSamples / ratio`, both source reads of every output sample are
in-bounds (the ceiling offset is clamped to the last sample's offset
`byteLength - 2`), and every output sample lies in `[-32768, 32767]`. -/
theorem resample_total_in_range (input : List Nat) (fromRate toRate : Rat)
    (h1 : 1 ≤ toRate) (h2 : toRate < fromRate) :
    (resamplePCM input fromRate toRate).length =
      2 * (⌊(input.length : Rat) / 2 / (fromRate / toRate)⌋).toNat ∧
    ∀ i : Nat, i < (⌊(input.length : Rat) / 2 / (fromRate / toRate)⌋).toNat →
      0 ≤ srcFloorOff (fromRate / toRate) i ∧
      srcFloorOff (fromRate / toRate) i + 1 < (input.length : Int) ∧
      0 ≤ srcCeilOff (fromRate / toRate) input.length i ∧
      srcCeilOff (fromRate / toRate) input.length i ≤ (input.length : Int) - 2 ∧
      -32768 ≤ resampleSample input (fromRate / toRate) i ∧
      resampleSample input (fromRate / toRate) i ≤ 32767 := by
  have htp : (0 : Rat) < toRate := lt_of_lt_of_le one_pos h1
  have hr : 1 < fromRate / toRate := (one_lt_div htp).mpr h2
  have hr0 : 0 < fromRate / toRate := lt_trans one_pos hr
  have hne : ¬ fromRate = toRate := fun h => absurd h2 (by rw [h]; exact lt_irrefl _)
  constructor
  · rw [resamplePCM, if_neg hne]
    rw [List.length_flatMap]
    have hmap : (List.range ((⌊(input.length : Rat) / 2 / (fromRate / toRate)⌋).toNat)).map
        (List.length ∘ fun i => int16Bytes (resampleSample input (fromRate / toRate) i)) =
        List.replicate ((⌊(input.length : Rat) / 2 / (fromRate / toRate)⌋).toNat) 2 := by
      rw [List.eq_replicate_iff]
      refine ⟨by simp, ?_⟩
      intro b hb
      rw [List.mem_map] at hb
      obtain ⟨i, _, hbi⟩ := hb
      rw [← hbi]
      exact int16Bytes_length _
    rw [hmap, List.sum_replicate]
    simp [Nat.mul_comm]
  · intro i hi
    set r : Rat := fromRate / toRate with hrdef
    set S : Rat := (input.length : Rat) / 2 with hSdef
    have hS0 : 0 ≤ S := by positivity
    have hSr0 : 0 ≤ S / r := by positivity
    have hfl0 : 0 ≤ ⌊S / r⌋ := Int.floor_nonneg.mpr hSr0
    have htn : ((⌊S / r⌋.toNat : Int)) = ⌊S / r⌋ := Int.toNat_of_nonneg hfl0
    have hiq : ((i : Int) + 1) ≤ ⌊S / r⌋ := by omega
    have hiQ : ((i : Rat) + 1) ≤ S / r := by
      calc ((i : Rat) + 1) = (((i : Int) + 1 : Int) : Rat) := by push_cast; ring
        _ ≤ (⌊S / r⌋ : Rat) := by exact_mod_cast hiq
        _ ≤ S / r := Int.floor_le _
    have hmul : ((i : Rat) + 1) * r ≤ S := (le_div_iff₀ hr0).mp hiQ
    have hsrc : (i : Rat) * r ≤ S - r := by nlinarith
    have hfl : (⌊(i : Rat) * r⌋ : Rat) ≤ S - r := le_trans (Int.floor_le _) hsrc
    have hflQ : (⌊(i : Rat) * r⌋ : Rat) < S - 1 := lt_of_le_of_lt hfl (by linarith)
    have hlen2 : 2 * ⌊(i : Rat) * r⌋ < (input.length : Int) - 2 := by
      have h2Q : ((2 * ⌊(i : Rat) * r⌋ : Int) : Rat) < (((input.length : Int) - 2 : Int) : Rat) := by
        push_cast
        rw [hSdef] at hflQ
        linarith
      exact_mod_cast h2Q
    have hfl0i : 0 ≤ ⌊(i : Rat) * r⌋ :=
      Int.floor_nonneg.mpr (mul_nonneg (Nat.cast_nonneg i) (le_of_lt hr0))
    have hFO : srcFloorOff r i = 2 * ⌊(i : Rat) * r⌋ := rfl
    refine ⟨?_, ?_, ?_, ?_, (resampleSample_range input r i).1,
      (resampleSample_range input r i).2⟩
    · rw [hFO]; omega
    · rw [hFO]; omega
    · rw [srcCeilOff, hFO]
      refine le_min (by omega) (by omega)
    · rw [srcCeilOff]
      exact min_le_right _ _

/-- Witness for C10: a six-byte (three-sample) buffer downsampled 3:1;
the hypotheses hold for rates 24000 → 8000 and the theorem gives the
length, bounds and range facts; the output is exactly one sample (two
bytes). -/
theorem resample_total_in_range_witness :
    (1 : Rat) ≤ mkRat 8000 1 ∧ mkRat 8000 1 < mkRat 24000 1 ∧
    (resamplePCM [0, 1, 2, 3, 4, 5] (mkRat 24000 1) (mkRat 8000 1)).length =
      2 * (⌊(([0, 1, 2, 3, 4, 5] : List Nat).length : Rat) / 2 /
        (mkRat 24000 1 / mkRat 8000 1)⌋).toNat := by
  refine ⟨by decide, by decide, ?_⟩
  exact (resample_total_in_range [0, 1, 2, 3, 4, 5] (mkRat 24000 1) (mkRat 8000 1)
    (by decide) (by decide)).1

/-!
## μ-law encode and decode

Encoder: `linearToMulaw` in `PcmToMulawTransform`
(`src/unnamed/part_000x` with the PCM→μ-law transform): sign bit, clip at
32635, bias `0x84 = 132`, segment from `SEGMENT_TABLE[(absValue >> 8) & 0x7f]`,
4-bit mantissa `(absValue >> (segment + 3)) & 0x0f`, then ones' complement
of the low byte (`~x & 0xff`, written here as `(x &&& 0xff) ^^^ 0xff`).

Decoder: the `MULAW_TO_LINEAR` table of `MulawToPcmTransform`
(`src/frontend/src/lib/zep/client.ts`, second part): invert the code,
unpack sign/exponent/mantissa and expand
`(((mantissa << 1) + 33) << exponent) - 33` with the sign — the 14-bit
μ-law expansion (maximum magnitude 8031). -/

/-- `SEGMENT_TABLE` from the PCM→μ-law transform. -/
def SEGMENT_TABLE : List Nat :=
  [0, 1, 2, 2, 3, 3, 3, 3, 4, 4, 4, 4, 4, 4, 4, 4, 5, 5, 5, 5, 5, 5, 5, 5, 5, 5,
   5, 5, 5, 5, 5, 5, 6, 6, 6, 6, 6, 6, 6, 6, 6, 6, 6, 6, 6, 6, 6, 6, 6, 6, 6, 6,
   6, 6, 6, 6, 6, 6, 6, 6, 6, 6, 6, 6, 7, 7, 7, 7, 7, 7, 7, 7, 7, 7, 7, 7, 7, 7,
   7, 7, 7, 7, 7, 7, 7, 7, 7, 7, 7, 7, 7, 7, 7, 7, 7, 7, 7, 7, 7, 7, 7, 7, 7, 7,
   7, 7, 7, 7, 7, 7, 7, 7, 7, 7, 7, 7, 7, 7, 7, 7, 7, 7, 7, 7, 7, 7, 7, 7]

/-- The segment lookup `SEGMENT_TABLE[(v >> 8) & 0x7f]` on a biased
magnitude `v`. -/
def segOfBiased (v : Nat) : Nat := SEGMENT_TABLE.getD ((v >>> 8) &&& 0x7f) 0

/-- The 4-bit mantissa `(v >> (segment + 3)) & 0x0f` of a biased
magnitude `v`. -/
def mantOfBiased (v : Nat) : Nat := (v >>> (segOfBiased v + 3)) &&& 0x0f

/-- `linearToMulaw`: encode a 16-bit linear sample to an 8-bit μ-law code
— sign bit (`sample < 0`), magnitude clipped at 32635 (`min`, covering the
source's branch-and-clip), bias 0x84, segment and mantissa from the biased
magnitude, and the final ones'-complement of the low byte. -/
def linearToMulaw (sample : Int) : Nat :=
  (((if sample < 0 then 0x80 else 0) |||
      (segOfBiased (min sample.natAbs 32635 + 0x84) <<< 4) |||
      mantOfBiased (min sample.natAbs 32635 + 0x84)) &&& 0xff) ^^^ 0xff

/-- One entry of the repository's `MULAW_TO_LINEAR` decode table: the
linear value decoded from the 8-bit μ-law code `i`. -/
def mulawToLinear (i : Nat) : Int :=
  let mulaw : Nat := (i &&& 0xff) ^^^ 0xff
  let exponent : Nat := (mulaw >>> 4) &&& 0x07
  let mantissa : Nat := mulaw &&& 0x0f
  let linear : Int := ((((mantissa <<< 1) + 33) <<< exponent : Nat) : Int) - 33
  if mulaw &&& 0x80 ≠ 0 then -linear else linear

/-- The μ-law segment a 16-bit sample falls in (after clip and bias). -/
def mulawSeg (sample : Int) : Nat := segOfBiased (min sample.natAbs 32635 + 0x84)

/-- The sample after the encoder's clip at ±32635. -/
def mulawClip (sample : Int) : Int :=
  if sample < 0 then -((min sample.natAbs 32635 : Nat) : Int)
  else ((min sample.natAbs 32635 : Nat) : Int)

/-- Counterexample to C9: for the sample 1000 (segment 3, quantization
bound `2 ^ 5 = 32`) the repository's decoder returns 247 for the encoded
code, an error of 753 — far outside the segment's quantization error bound.
The decoder expands into the 14-bit μ-law domain while the encoder
compresses from the 16-bit domain, so the round trip scales by 1/4. -/
theorem mulaw_roundtrip_counterexample :
    mulawToLinear (linearToMulaw 1000) = 247 ∧
    mulawSeg 1000 = 3 ∧
    ¬ (mulawToLinear (linearToMulaw 1000) - 1000).natAbs ≤ 2 ^ (mulawSeg 1000 + 2) := by
  decide

/-- Characterization of the 128-entry segment table: each entry is at most
7, and entry `k` is the bit length of `k` (so `k < 2 ^ tab k` and
`2 ^ tab k ≤ 2 * k + 1`). -/
theorem segment_table_char : ∀ k : Fin 128,
    SEGMENT_TABLE.getD k.val 0 ≤ 7 ∧
    k.val < 2 ^ (SEGMENT_TABLE.getD k.val 0) ∧
    2 ^ (SEGMENT_TABLE.getD k.val 0) ≤ 2 * k.val + 1 := by
  decide

/-- Packing and unpacking of a μ-law byte: for a sign bit, a 3-bit
exponent and a 4-bit mantissa, the double ones'-complement returns the
packed byte, and the decoder's field extractions recover the three
fields. -/
theorem mulaw_pack_unpack : ∀ (sb : Fin 2) (e : Fin 8) (m : Fin 16),
    (((((sb.val * 128) ||| (e.val <<< 4) ||| m.val) &&& 0xff) ^^^ 0xff) &&& 0xff) ^^^ 0xff =
      (sb.val * 128) ||| (e.val <<< 4) ||| m.val ∧
    ((sb.val * 128) ||| (e.val <<< 4) ||| m.val) &&& 0x80 = sb.val * 128 ∧
    ((((sb.val * 128) ||| (e.val <<< 4) ||| m.val) >>> 4) &&& 0x07) = e.val ∧
    ((sb.val * 128) ||| (e.val <<< 4) ||| m.val) &&& 0x0f = m.val := by
  decide

/-- The segment index of a biased magnitude is its high-byte value. -/
theorem segOfBiased_arg (v : Nat) (h2 : v ≤ 32767) : (v >>> 8) &&& 0x7f = v / 256 := by
  have hmod := Nat.and_pow_two_sub_one_eq_mod (v >>> 8) 7
  norm_num at hmod
  rw [hmod, Nat.shiftRight_eq_div_pow]
  norm_num
  omega


/-- Every segment index is at most 7. -/
theorem segOfBiased_le7 (v : Nat) : segOfBiased v ≤ 7 := by
  have h : (v >>> 8) &&& 0x7f < 128 := lt_of_le_of_lt Nat.and_le_right (by norm_num)
  exact (segment_table_char ⟨(v >>> 8) &&& 0x7f, h⟩).1

/-- Decoding a packed μ-law byte with clear sign bit recovers the
expansion of the packed exponent and mantissa. -/
theorem mulawToLinear_packed_pos : ∀ (e : Fin 8) (m : Fin 16),
    mulawToLinear (((0 ||| (e.val <<< 4) ||| m.val) &&& 0xff) ^^^ 0xff) =
      ((((m.val <<< 1) + 33) <<< e.val : Nat) : Int) - 33 := by
  decide

/-- Decoding a packed μ-law byte with set sign bit recovers the negated
expansion. -/
theorem mulawToLinear_packed_neg : ∀ (e : Fin 8) (m : Fin 16),
    mulawToLinear (((0x80 ||| (e.val <<< 4) ||| m.val) &&& 0xff) ^^^ 0xff) =
      -(((((m.val <<< 1) + 33) <<< e.val : Nat) : Int) - 33) := by
  decide

/-- Segment quantization of a biased magnitude `v ∈ [132, 32767]`: the
16-bit μ-law expansion (4 times the repository decoder's 14-bit expansion,
before bias removal) reproduces `v` within half a quantization step,
`2 ^ (segment + 2)`. -/
theorem mulaw_mag_bound (v : Nat) (h1 : 132 ≤ v) (h2 : v ≤ 32767) :
    (4 * ((((mantOfBiased v <<< 1) + 33) <<< segOfBiased v : Nat) : Int) -
        ((v : Nat) : Int)).natAbs ≤ 2 ^ (segOfBiased v + 2) := by
  have hk := segOfBiased_arg v h2
  have hklt : v / 256 < 128 := by omega
  have hchar := segment_table_char ⟨v / 256, hklt⟩
  have hseg : segOfBiased v = SEGMENT_TABLE.getD (v / 256) 0 := by
    rw [segOfBiased, hk]
  have hs7 : segOfBiased v ≤ 7 := segOfBiased_le7 v
  have hklt2 : v / 256 < 2 ^ segOfBiased v := by rw [hseg]; exact hchar.2.1
  have hkge : 2 ^ segOfBiased v ≤ 2 * (v / 256) + 1 := by rw [hseg]; exact hchar.2.2
  have hmant : mantOfBiased v = v / 2 ^ (segOfBiased v + 3) % 16 := by
    rw [mantOfBiased, Nat.shiftRight_eq_div_pow]
    have hm := Nat.and_pow_two_sub_one_eq_mod (v / 2 ^ (segOfBiased v + 3)) 4
    norm_num at hm
    exact hm
  rw [hmant, Nat.shiftLeft_eq, Nat.shiftLeft_eq]
  generalize hgen : segOfBiased v = s at hs7 hklt2 hkge ⊢
  interval_cases s <;> omega

/-- C9 amended: encoding a 16-bit linear PCM sample with `linearToMulaw`
and decoding the code with the repository's `MULAW_TO_LINEAR` table
reproduces one quarter of the clipped sample: four times the decoded value
is within the segment's quantization error bound `2 ^ (segment + 2)` of
the sample clipped at ±32635.  (The decoder expands into the 14-bit μ-law
domain — bias 33 — while the encoder compresses from the 16-bit domain —
bias 132 — so the round trip itself is scaled by 1/4.) -/
theorem mulaw_roundtrip_scaled (x : Int) :
    (4 * mulawToLinear (linearToMulaw x) - mulawClip x).natAbs ≤
      2 ^ (mulawSeg x + 2) := by
  have ha1 : min x.natAbs 32635 ≤ 32635 := min_le_right _ _
  set a : Nat := min x.natAbs 32635 with hadef
  have hv1 : 132 ≤ a + 132 := by omega
  have hv2 : a + 132 ≤ 32767 := by omega
  have hmag := mulaw_mag_bound (a + 132) hv1 hv2
  push_cast at hmag
  have hs7 : segOfBiased (a + 132) ≤ 7 := segOfBiased_le7 (a + 132)
  have hm15 : mantOfBiased (a + 132) ≤ 15 := Nat.and_le_right
  have hseg2 : mulawSeg x = segOfBiased (a + 132) := by
    rw [mulawSeg, ← hadef]
  by_cases hneg : x < 0
  · have henc : linearToMulaw x =
        ((0x80 ||| (segOfBiased (a + 132) <<< 4) ||| mantOfBiased (a + 132)) &&& 0xff) ^^^
          0xff := by
      rw [linearToMulaw, if_pos hneg, ← hadef]
    have hdec : mulawToLinear (linearToMulaw x) =
        -(((((mantOfBiased (a + 132) <<< 1) + 33) <<< segOfBiased (a + 132) : Nat) : Int)
          - 33) := by
      rw [henc]
      exact mulawToLinear_packed_neg ⟨segOfBiased (a + 132), by omega⟩
        ⟨mantOfBiased (a + 132), by omega⟩
    have hclip : mulawClip x = -((a : Nat) : Int) := by
      rw [mulawClip, if_pos hneg, ← hadef]
    rw [hseg2, hclip, hdec]
    omega
  · have henc : linearToMulaw x =
        ((0 ||| (segOfBiased (a + 132) <<< 4) ||| mantOfBiased (a + 132)) &&& 0xff) ^^^
          0xff := by
      rw [linearToMulaw, if_neg hneg, ← hadef]
    have hdec : mulawToLinear (linearToMulaw x) =
        ((((mantOfBiased (a + 132) <<< 1) + 33) <<< segOfBiased (a + 132) : Nat) : Int)
          - 33 := by
      rw [henc]
      exact mulawToLinear_packed_pos ⟨segOfBiased (a + 132), by omega⟩
        ⟨mantOfBiased (a + 132), by omega⟩
    have hclip : mulawClip x = ((a : Nat) : Int) := by
      rw [mulawClip, if_neg hneg, ← hadef]
    rw [hseg2, hclip, hdec]
    omega
